import Mathlib

/-!
Verification development for the game-library discovery core
(`src-tauri/src/steam.rs`, `src-tauri/src/epic.rs`).

The Rust sources are shallowly embedded:
* byte buffers (`&[u8]`) are `List Nat` (each entry models one byte, so it
  is `< 256` on every input that corresponds to a real buffer; the
  definitions are total on all of `Nat`),
* text (`&str`) is `List Char`,
* filesystem paths (`PathBuf`) are `List Char` with an explicit `pathJoin`,
* filesystem state is passed explicitly through small record types,
* the two `while` loops of `parse_shortcuts_vdf` are fuel-indexed
  recursions; running out of fuel is the explicit `DecRes.noFuel` value and
  an out-of-bounds slice index (a Rust panic) is `DecRes.oob`, so both
  termination and panic-freedom are provable statements rather than
  assumptions.
-/

/-- Result of one instrumented decoding computation: `done` is a normal
return, `oob` models a Rust slice-index panic, `noFuel` means the fuel ran
out before the loop finished. -/
inductive DecRes (α : Type) where
  | done : α → DecRes α
  | oob : DecRes α
  | noFuel : DecRes α
deriving DecidableEq

/-- Sequencing of instrumented computations; panics and fuel exhaustion
propagate. -/
def DecRes.bind {α β : Type} : DecRes α → (α → DecRes β) → DecRes β
  | .done a, f => f a
  | .oob, _ => .oob
  | .noFuel, _ => .noFuel

/-- ASCII byte for a character of a Rust string literal. -/
def strb (s : String) : List Nat := s.toList.map Char.toNat

/-- `u8::to_ascii_lowercase`, on the `Nat` model of bytes. -/
def asciiLower (b : Nat) : Nat := if 65 ≤ b ∧ b ≤ 90 then b + 32 else b

/-- `str::eq_ignore_ascii_case` on byte strings. -/
def eqIgnoreAsciiCase (xs ys : List Nat) : Bool :=
  xs.map asciiLower == ys.map asciiLower

/-- The bytes collected by `read_cstring` starting at `pos`: everything up
to (excluding) the first NUL byte or the end of the buffer. -/
def cstrOf (data : List Nat) (pos : Nat) : List Nat :=
  (data.drop pos).takeWhile (fun b => b != 0)

/-- Cursor position after `read_cstring` starting at `pos` (the NUL
terminator is consumed, even at the end of the buffer). -/
def cstrEnd (data : List Nat) (pos : Nat) : Nat :=
  pos + (cstrOf data pos).length + 1

/-- `read_u32_le` (steam.rs): returns the value and the new cursor; when
fewer than 4 bytes remain it returns 0 without advancing. -/
def readU32le (data : List Nat) (pos : Nat) : Nat × Nat :=
  if pos + 4 > data.length then (0, pos)
  else
    (data.getD pos 0 + data.getD (pos + 1) 0 * 256 +
      data.getD (pos + 2) 0 * 65536 + data.getD (pos + 3) 0 * 16777216,
      pos + 4)

/-- Instrumented slice index `data[i]`: out of bounds is a panic. -/
def byteAt (data : List Nat) (i : Nat) : DecRes Nat :=
  if h : i < data.length then .done data[i] else .oob

/-- Instrumented `read_cstring` (steam.rs lines 84-92): the loop
`while *pos < data.len() && data[*pos] != 0` collects bytes, then the
terminator position is consumed unconditionally. -/
def readCstringI (data : List Nat) : Nat → Nat → DecRes (List Nat × Nat)
  | 0, _ => .noFuel
  | fuel + 1, pos =>
    if pos < data.length then
      (byteAt data pos).bind (fun b =>
        if b = 0 then .done ([], pos + 1)
        else (readCstringI data fuel (pos + 1)).bind (fun r =>
          .done (b :: r.1, r.2)))
    else .done ([], pos + 1)

/-- `read_cstring` run with always-sufficient fuel. -/
def readCstringR (data : List Nat) (pos : Nat) : DecRes (List Nat × Nat) :=
  readCstringI data (data.length + 1) pos

/-- One non-Steam shortcut record (struct `ShortcutGame`); strings are kept
as byte lists. -/
structure ShortcutGame where
  app_id : Nat
  app_name : List Nat
  exe : List Nat
deriving DecidableEq

/-- The mutable per-entry state of the decoder loop
(`app_id`, `app_name`, `exe`). -/
structure SState where
  appId : Nat
  appName : List Nat
  exe : List Nat
deriving DecidableEq

/-- Instrumented inner field loop of `parse_shortcuts_vdf`
(steam.rs lines 122-178): `while i < data.len() && data[i] != END_MAP`.
Each iteration reads the tag byte, the field name, then the payload
according to the tag: `0x02` a little-endian u32 (recorded when the name
case-insensitively equals "appid"), `0x01` a C string (recorded when the
lowercased name is "appname" or "exe"), `0x04` skips 4 bytes, `0x05`
skips 8 bytes, and every other tag (including `0x00` and `0x03`) skips
one byte. -/
def fieldLoopI (data : List Nat) : Nat → Nat → SState → DecRes (SState × Nat)
  | 0, _, _ => .noFuel
  | fuel + 1, i, st =>
    if i < data.length then
      (byteAt data i).bind (fun b =>
        if b = 8 then .done (st, i)
        else
          (readCstringR data (i + 1)).bind (fun nm =>
            if b = 2 then
              let rv := readU32le data nm.2
              let st' := if eqIgnoreAsciiCase nm.1 (strb "appid") then
                { st with appId := rv.1 } else st
              fieldLoopI data fuel rv.2 st'
            else if b = 1 then
              (readCstringR data nm.2).bind (fun sv =>
                let low := nm.1.map asciiLower
                let st' := if low = strb "appname" then { st with appName := sv.1 }
                  else if low = strb "exe" then { st with exe := sv.1 } else st
                fieldLoopI data fuel sv.2 st')
            else if b = 4 then fieldLoopI data fuel (nm.2 + 4) st
            else if b = 5 then fieldLoopI data fuel (nm.2 + 8) st
            else fieldLoopI data fuel (nm.2 + 1) st))
    else .done (st, i)

/-- First byte is an ASCII digit (`key.chars().next().map(is_ascii_digit)`). -/
def keyIsNumeric : List Nat → Bool
  | [] => false
  | c :: _ => 48 ≤ c && c ≤ 57

/-- Instrumented top-level scan loop of `parse_shortcuts_vdf`
(steam.rs lines 103-188): skip bytes that are not `0x00`; on `0x00` read
the map key; when the key starts with an ASCII digit run the field loop
and push a record when the collected `app_name` is non-empty. -/
def topLoopI (data : List Nat) : Nat → Nat → List ShortcutGame →
    DecRes (List ShortcutGame)
  | 0, _, _ => .noFuel
  | fuel + 1, i, acc =>
    if i < data.length then
      (byteAt data i).bind (fun b =>
        if b = 0 then
          (readCstringR data (i + 1)).bind (fun kr =>
            if keyIsNumeric kr.1 then
              (fieldLoopI data fuel kr.2 ⟨0, [], []⟩).bind (fun r =>
                let acc' := if r.1.appName = [] then acc
                  else acc ++ [⟨r.1.appId, r.1.appName, r.1.exe⟩]
                topLoopI data fuel r.2 acc')
            else topLoopI data fuel kr.2 acc)
        else topLoopI data fuel (i + 1) acc)
    else .done acc

/-- `parse_shortcuts_vdf` (steam.rs lines 74-191), run with fuel
`data.length + 1`, which is proved sufficient below. -/
def parse_shortcuts_vdf (data : List Nat) : List ShortcutGame :=
  match topLoopI data (data.length + 1) 0 [] with
  | .done gs => gs
  | _ => []

/-- Follows the spec's words (§4.4 of the specification), not the source:
skips one complete nested object, "recursion continues until the matching
end marker". `pos` points at the first field of the object; the returned
position is just past the object's own `0x08`. Used only to compare the
implementation against the spec's nesting semantics. -/
def specSkipMap (data : List Nat) : Nat → Nat → Option Nat
  | 0, _ => none
  | fuel + 1, pos =>
    match data.get? pos with
    | none => none
    | some b =>
      if b = 8 then some (pos + 1)
      else
        let n := cstrEnd data (pos + 1)
        if b = 0 then
          match specSkipMap data fuel n with
          | some p => specSkipMap data fuel p
          | none => none
        else if b = 1 then specSkipMap data fuel (cstrEnd data n)
        else if b = 2 then specSkipMap data fuel (n + 4)
        else if b = 3 then specSkipMap data fuel (n + 1)
        else if b = 4 then specSkipMap data fuel (n + 4)
        else if b = 5 then specSkipMap data fuel (n + 8)
        else specSkipMap data fuel (n + 1)

/-- Follows the spec's words, not the source: the per-app field iteration
as §4.4 describes it — a `0x00` field opens a nested object that is
consumed whole up to its matching end marker, and the iteration stops only
at the map-end tag of the per-app map itself. -/
def specFieldLoop (data : List Nat) : Nat → Nat → SState → Option (SState × Nat)
  | 0, _, _ => none
  | fuel + 1, pos, st =>
    match data.get? pos with
    | none => some (st, pos)
    | some b =>
      if b = 8 then some (st, pos + 1)
      else
        let name := cstrOf data (pos + 1)
        let n := cstrEnd data (pos + 1)
        if b = 0 then
          match specSkipMap data fuel n with
          | some p => specFieldLoop data fuel p st
          | none => none
        else if b = 2 then
          let rv := readU32le data n
          let st' := if eqIgnoreAsciiCase name (strb "appid") then
            { st with appId := rv.1 } else st
          specFieldLoop data fuel rv.2 st'
        else if b = 1 then
          let low := name.map asciiLower
          let st' := if low = strb "appname" then { st with appName := cstrOf data n }
            else if low = strb "exe" then { st with exe := cstrOf data n } else st
          specFieldLoop data fuel (cstrEnd data n) st'
        else if b = 3 then specFieldLoop data fuel (n + 1) st
        else if b = 4 then specFieldLoop data fuel (n + 4) st
        else if b = 5 then specFieldLoop data fuel (n + 8) st
        else specFieldLoop data fuel (n + 1) st

/-- Follows the spec's words, not the source: top-level scan with the
spec's nesting-aware per-app iteration. -/
def specTopLoop (data : List Nat) : Nat → Nat → List ShortcutGame →
    Option (List ShortcutGame)
  | 0, _, _ => none
  | fuel + 1, i, acc =>
    match data.get? i with
    | none => some acc
    | some b =>
      if b = 0 then
        let key := cstrOf data (i + 1)
        let k := cstrEnd data (i + 1)
        if keyIsNumeric key then
          match specFieldLoop data fuel k ⟨0, [], []⟩ with
          | some r =>
            let acc' := if r.1.appName = [] then acc
              else acc ++ [⟨r.1.appId, r.1.appName, r.1.exe⟩]
            specTopLoop data fuel r.2 acc'
          | none => none
        else specTopLoop data fuel k acc
      else specTopLoop data fuel (i + 1) acc

/-- The shortcut decoder as the spec describes it (nesting-aware);
compared against `parse_shortcuts_vdf` for claim C3. -/
def spec_parse_shortcuts (data : List Nat) : List ShortcutGame :=
  match specTopLoop data (data.length + 1) 0 [] with
  | some gs => gs
  | none => []

/-- Characters of a Rust string literal. -/
def strc (s : String) : List Char := s.toList

/-- Auxiliary scanner for `str::lines`: `cur` is the current line reversed. -/
def linesGo : List Char → List Char → List (List Char)
  | cur, [] => [cur.reverse]
  | cur, c :: rest =>
    if c = '\n' then
      (if cur.reverse.getLast? = some '\r' then cur.reverse.dropLast else cur.reverse) ::
        (match rest with
         | [] => []
         | _ :: _ => linesGo [] rest)
    else linesGo (c :: cur) rest

/-- `str::lines`: split at `\n`, stripping a trailing `\r` from each
terminated line; a final line without terminator is kept as is; the empty
string has no lines. -/
def rustLines (cs : List Char) : List (List Char) :=
  match cs with
  | [] => []
  | _ :: _ => linesGo [] cs

/-- `str::trim`: drop whitespace from both ends. -/
def trimStr (l : List Char) : List Char :=
  ((l.dropWhile Char.isWhitespace).reverse.dropWhile Char.isWhitespace).reverse

/-- `extract_quoted_value` (steam.rs lines 326-339): the nth (0-indexed)
quoted value of a line; each step finds the next opening quote, collects
until the closing quote (consuming it), and counts. -/
def extract_quoted_value : List Char → Nat → Option (List Char)
  | cs, idx =>
    match cs.dropWhile (fun c => c ≠ '"') with
    | [] => none
    | _ :: rest =>
      match idx with
      | 0 => some (rest.takeWhile (fun c => c ≠ '"'))
      | idx' + 1 =>
        extract_quoted_value ((rest.dropWhile (fun c => c ≠ '"')).drop 1) idx'

/-- The literal `"key"` prefix that a significant line must start with. -/
def quotedKey (key : List Char) : List Char := '"' :: key ++ ['"']

/-- `find_acf_value` (steam.rs lines 342-350): first line whose trimmed
content starts with `"key"`; the value is that line's second quoted token.
The function returns for the first matching line even when the token is
absent. -/
def find_acf_value (contents : List Char) (key : List Char) : Option (List Char) :=
  match (rustLines contents).find? (fun l => (quotedKey key).isPrefixOf (trimStr l)) with
  | some l => extract_quoted_value (trimStr l) 1
  | none => none

/-- `str::parse::<u64>`: an optional leading `+`, then one or more ASCII
digits, rejecting anything else and values of 2^64 or more. -/
def parseU64 (s : List Char) : Option Nat :=
  let ds := match s with
    | '+' :: r => r
    | r => r
  if ds = [] then none
  else if ds.all Char.isDigit then
    let v := ds.foldl (fun acc c => acc * 10 + (c.toNat - 48)) 0
    if v < 2 ^ 64 then some v else none
  else none

/-- `Path::join` on the string model of `PathBuf` (Unix rules): an absolute
argument replaces the base; otherwise a `/` separator is inserted unless
the base is empty or already ends with one. -/
def pathJoin (p q : List Char) : List Char :=
  if q.head? = some '/' then q
  else if p = [] ∨ p.getLast? = some '/' then p ++ q
  else p ++ '/' :: q

/-- A native Steam record (struct `SteamGame`). -/
structure SteamGame where
  app_id : Nat
  name : List Char
  install_dir : List Char
  is_shortcut : Bool
deriving DecidableEq

/-- `parse_acf` (steam.rs lines 287-299): the three required keys, a
numeric `appid`, and `install_dir = steamapps_dir/common/<installdir>`. -/
def parse_acf (contents : List Char) (steamappsDir : List Char) : Option SteamGame := do
  let appIdStr ← find_acf_value contents (strc "appid")
  let app_id ← parseU64 appIdStr
  let name ← find_acf_value contents (strc "name")
  let installDirName ← find_acf_value contents (strc "installdir")
  some { app_id := app_id, name := name,
         install_dir := pathJoin (pathJoin steamappsDir (strc "common")) installDirName,
         is_shortcut := false }

/-- The joined library path contributed by one line of the index, when the
trimmed line starts with `"path"` and carries a second quoted token. -/
def lineValue (line : List Char) : Option (List Char) :=
  let t := trimStr line
  if (quotedKey (strc "path")).isPrefixOf t then
    (extract_quoted_value t 1).map (fun v => pathJoin v (strc "steamapps"))
  else none

/-- One `paths.push` step guarded by `paths.contains`. -/
def insertNew (paths : List (List Char)) (v : List Char) : List (List Char) :=
  if v ∈ paths then paths else paths ++ [v]

/-- The loop body of `parse_library_paths_from_vdf` for one line. -/
def libStep (paths : List (List Char)) (line : List Char) : List (List Char) :=
  match lineValue line with
  | some lib => insertNew paths lib
  | none => paths

/-- `parse_library_paths_from_vdf` (steam.rs lines 241-262): start from the
root's own `steamapps` directory; every trimmed line starting with
`"path"` contributes its second quoted token joined with `steamapps`,
pushed only when not already present. (The Rust function returns
`Ok` unconditionally; the `Result` wrapper is omitted here.) -/
def parse_library_paths_from_vdf (vdf : List Char) (steamRoot : List Char) :
    List (List Char) :=
  (rustLines vdf).foldl libStep [pathJoin steamRoot (strc "steamapps")]

/-- The joined library path of every significant `"path"` line, in input
order (used to state the properties of the parser). -/
def pathValues (vdf : List Char) : List (List Char) :=
  (rustLines vdf).filterMap lineValue

/-- Filesystem state that `discover_games_at` depends on: whether the root
exists, the contents of `steamapps/libraryfolders.vdf` (`none` models a
failed read), and for each directory its file listing in walk order
(file name and contents; `none` contents model an unreadable file). -/
structure SteamFS where
  rootExists : Bool
  libraryVdf : Option (List Char)
  dirFiles : List Char → List (List Char × Option (List Char))

/-- The error type `SteamError`. -/
inductive SteamErr where
  | notFound
  | ioErr
deriving DecidableEq

/-- `find_library_paths` (steam.rs lines 233-237): read the index file and
parse it; a failed read is an `Io` error. -/
def find_library_paths (fs : SteamFS) (steamRoot : List Char) :
    Except SteamErr (List (List Char)) :=
  match fs.libraryVdf with
  | none => .error .ioErr
  | some s => .ok (parse_library_paths_from_vdf s steamRoot)

/-- Filename filter of `read_games_from_library`:
`appmanifest_*.acf`. -/
def isAppmanifestName (nm : List Char) : Bool :=
  (strc "appmanifest_").isPrefixOf nm && (strc ".acf").isSuffixOf nm

/-- `read_games_from_library` (steam.rs lines 265-278): parse every
readable `appmanifest_*.acf` file of the directory, in walk order. -/
def read_games_from_library (fs : SteamFS) (dir : List Char) : List SteamGame :=
  (fs.dirFiles dir).filterMap (fun e =>
    if isAppmanifestName e.1 then e.2.bind (fun c => parse_acf c dir) else none)

/-- The `seen.insert` deduplication filter of `discover_games_at`: keep a
record only when its `app_id` was not seen before. -/
def keepFirsts (seen : List Nat) : List SteamGame → List SteamGame
  | [] => []
  | g :: gs =>
    if g.app_id ∈ seen then keepFirsts seen gs
    else g :: keepFirsts (g.app_id :: seen) gs

/-- `discover_games_at` (steam.rs lines 308-321): a missing root is the
`NotFound` error; otherwise expand the library index and deduplicate the
concatenated per-library records by `app_id`. -/
def discover_games_at (fs : SteamFS) (steamRoot : List Char) :
    Except SteamErr (List SteamGame) :=
  if fs.rootExists = false then .error .notFound
  else
    match find_library_paths fs steamRoot with
    | .error e => .error e
    | .ok libs => .ok (keepFirsts [] (libs.flatMap (read_games_from_library fs)))

/-- All records of one discovery pass before deduplication, in discovery
order (library paths in index order, files in walk order). -/
def steamAllGames (fs : SteamFS) (steamRoot : List Char) : List SteamGame :=
  match fs.libraryVdf with
  | some s => (parse_library_paths_from_vdf s steamRoot).flatMap
      (read_games_from_library fs)
  | none => []

/-- A JSON value, as far as the manifest schema distinguishes them. -/
inductive JVal where
  | jnull
  | jbool : Bool → JVal
  | jstr : String → JVal
  | jother
deriving DecidableEq

/-- A JSON object: its fields in document order. -/
def JObj : Type := List (String × JVal)

/-- The deserialized manifest schema (struct `Manifest`, epic.rs lines
47-61). -/
structure Manifest where
  app_name : Option String
  display_name : Option String
  install_location : Option String
  catalog_namespace : Option String
  catalog_item_id : Option String
  b_is_application : Bool
  b_is_executable : Bool
  b_is_incomplete_install : Bool
deriving DecidableEq

/-- Serde field access: `none` is a duplicate-field error, `some none` an
absent field, `some (some v)` the field's value. -/
def getField (o : JObj) (k : String) : Option (Option JVal) :=
  match o.filter (fun p => p.1 == k) with
  | [] => some none
  | [p] => some p.2
  | _ => none

/-- Serde `Option<String>` field: absent or `null` is `None`; a string is
`Some`; any other type is a deserialization error. -/
def getOptStr (o : JObj) (k : String) : Option (Option String) :=
  match getField o k with
  | none => none
  | some none => some none
  | some (some (.jstr s)) => some (some s)
  | some (some .jnull) => some none
  | some (some _) => none

/-- Serde `bool` field with `#[serde(default)]`: absent is `false`; a
boolean is its value; any other type is a deserialization error. -/
def getBool (o : JObj) (k : String) : Option Bool :=
  match getField o k with
  | none => none
  | some none => some false
  | some (some (.jbool b)) => some b
  | some (some _) => none

/-- Serde deserialization of `Manifest`: the five `PascalCase` identity
fields and the three exactly-renamed boolean flags. -/
def deserializeManifest (o : JObj) : Option Manifest := do
  let app_name ← getOptStr o "AppName"
  let display_name ← getOptStr o "DisplayName"
  let install_location ← getOptStr o "InstallLocation"
  let catalog_namespace ← getOptStr o "CatalogNamespace"
  let catalog_item_id ← getOptStr o "CatalogItemId"
  let b_is_application ← getBool o "bIsApplication"
  let b_is_executable ← getBool o "bIsExecutable"
  let b_is_incomplete_install ← getBool o "bIsIncompleteInstall"
  some ⟨app_name, display_name, install_location, catalog_namespace,
    catalog_item_id, b_is_application, b_is_executable, b_is_incomplete_install⟩

/-- The exact-case boolean flag a JSON object carries for key `k`
(`false` when the key is absent); used to state what the flags of a
successfully deserialized manifest are. -/
def flagVal (o : JObj) (k : String) : Bool :=
  match o.find? (fun p => p.1 == k) with
  | some (_, .jbool b) => b
  | _ => false

/-- A normalized Epic record (struct `EpicGame`). -/
structure EpicGame where
  app_name : String
  display_name : String
  install_location : String
  catalog_namespace : String
  catalog_item_id : String
  cover_image : Option String
deriving DecidableEq

/-- `Option::filter(|s| !s.is_empty())` on strings. -/
def nonEmptyStr : Option String → Option String
  | some s => if s = "" then none else some s
  | none => none

/-- `parse_manifest` (epic.rs lines 123-149). The file's content is
`none` when the read fails or the text is not a JSON object; `cover`
models `find_cover_image`, the shallow scan of the install directory. -/
def parse_manifest (doc : Option JObj) (cover : String → Option String) :
    Option EpicGame := do
  let o ← doc
  let m ← deserializeManifest o
  if m.b_is_application && m.b_is_executable && !m.b_is_incomplete_install then
    do
      let app_name ← nonEmptyStr m.app_name
      let display_name ← nonEmptyStr m.display_name
      let install_location ← nonEmptyStr m.install_location
      some { app_name := app_name, display_name := display_name,
             install_location := install_location,
             catalog_namespace := m.catalog_namespace.getD "",
             catalog_item_id := m.catalog_item_id.getD "",
             cover_image := cover install_location }
  else none

/-- One directory entry of the manifest directory: the file's extension
and its parsed content. -/
structure EpicEntry where
  ext : Option String
  doc : Option JObj

/-- Filesystem state that `discover_games_from` depends on. `entries` is
`none` when `read_dir` itself fails; entries whose own iteration errored
are already absent (the `flatten`). -/
structure EpicFS where
  dirExists : Bool
  entries : Option (List EpicEntry)
  cover : String → Option String

/-- The error type `EpicError`. -/
inductive EpicErr where
  | notFound
  | ioErr
deriving DecidableEq

/-- `discover_games_from` (epic.rs lines 76-94): a missing directory is
`Ok(vec![])`; otherwise every `.item` entry that parses contributes one
record, in directory order. -/
def discover_games_from (fs : EpicFS) : Except EpicErr (List EpicGame) :=
  if fs.dirExists = false then .ok []
  else
    match fs.entries with
    | none => .error .ioErr
    | some es =>
      .ok (es.filterMap (fun e =>
        if e.ext = some "item" then parse_manifest e.doc fs.cover else none))


/-! ### Concrete inputs used to witness the theorems -/

/-- A minimal well-formed shortcuts buffer: one numeric-keyed map with a
single string field `appname` = "X". -/
def simpleBuf : List Nat :=
  [0, 48, 0, 1, 97, 112, 112, 110, 97, 109, 101, 0, 88, 0, 8]

/-- A per-app map holding one non-empty nested object (`0x00 "s"` with a
one-byte boolean field) followed by an `appname` field and the map end. -/
def nestedBuf : List Nat :=
  [0, 48, 0,
   0, 115, 0,
   3, 98, 0, 255,
   8,
   1, 97, 112, 112, 110, 97, 109, 101, 0, 88, 0,
   8]

/-- An ACF manifest whose `name` line carries an empty quoted value. -/
def emptyNameAcf : List Char :=
  strc "\"appid\" \"1\"\n\"name\" \"\"\n\"installdir\" \"d\""

/-- A complete ACF manifest. -/
def dotaAcf : List Char :=
  strc "\"appid\" \"570\"\n\"name\" \"Dota\"\n\"installdir\" \"dota\""

/-- A manifest object with canonical-case boolean flag keys. -/
def objFlagsTrue : JObj :=
  [("AppName", .jstr "G"), ("DisplayName", .jstr "D"),
   ("InstallLocation", .jstr "/g"),
   ("bIsApplication", .jbool true), ("bIsExecutable", .jbool true)]

/-- The same manifest with the is-application flag key spelled in a
different letter case. -/
def objFlagsWrongCase : JObj :=
  [("AppName", .jstr "G"), ("DisplayName", .jstr "D"),
   ("InstallLocation", .jstr "/g"),
   ("bisapplication", .jbool true), ("bIsExecutable", .jbool true)]

/-- A manifest flagged as an incomplete install. -/
def objIncomplete : JObj :=
  [("AppName", .jstr "G"), ("DisplayName", .jstr "D"),
   ("InstallLocation", .jstr "/g"),
   ("bIsApplication", .jbool true), ("bIsExecutable", .jbool true),
   ("bIsIncompleteInstall", .jbool true)]

/-- The manifest deserialized from `objFlagsTrue`. -/
def mFlagsTrue : Manifest :=
  ⟨some "G", some "D", some "/g", none, none, true, true, false⟩

/-- A cover-art oracle that never finds an image. -/
def noCover : String → Option String := fun _ => none

/-- A readable `.item` entry holding `objFlagsTrue`. -/
def goodEntry : EpicEntry := ⟨some "item", some objFlagsTrue⟩

/-- A structurally invalid `.item` entry. -/
def badEntry : EpicEntry := ⟨some "item", none⟩

/-- A Steam filesystem whose root does not exist. -/
def fsAbsentSteam : SteamFS := ⟨false, none, fun _ => []⟩

/-- An Epic filesystem whose manifest directory does not exist. -/
def fsAbsentEpic : EpicFS := ⟨false, none, fun _ => none⟩

/-- ACF manifests for the deduplication witness: ids 100, 200 and a second
100 in another library. -/
def acfA : List Char := strc "\"appid\" \"100\"\n\"name\" \"A\"\n\"installdir\" \"a\""

/-- Second manifest, id 200. -/
def acfB : List Char := strc "\"appid\" \"200\"\n\"name\" \"B\"\n\"installdir\" \"b\""

/-- Third manifest, duplicate id 100, different name and directory. -/
def acfC : List Char := strc "\"appid\" \"100\"\n\"name\" \"C\"\n\"installdir\" \"c\""

/-- A Steam filesystem with the root library (ids 100, 200) and one extra
library whose single manifest duplicates id 100. -/
def fsDup : SteamFS :=
  ⟨true, some (strc "\"path\" \"/lib\""),
   fun d =>
     if d = strc "/r/steamapps" then
       [(strc "appmanifest_100.acf", some acfA),
        (strc "appmanifest_200.acf", some acfB)]
     else if d = strc "/lib/steamapps" then
       [(strc "appmanifest_100.acf", some acfC)]
     else []⟩

/-- The record parsed from `acfA`. -/
def gameA : SteamGame := ⟨100, strc "A", strc "/r/steamapps/common/a", false⟩

/-- The record parsed from `acfB`. -/
def gameB : SteamGame := ⟨200, strc "B", strc "/r/steamapps/common/b", false⟩


/-! ### Lemmas about the instrumented shortcut decoder -/

@[simp] theorem DecRes.done_bind {α β : Type} (a : α) (f : α → DecRes β) :
    (DecRes.done a).bind f = f a := rfl

@[simp] theorem DecRes.oob_bind {α β : Type} (f : α → DecRes β) :
    (DecRes.oob : DecRes α).bind f = .oob := rfl

@[simp] theorem DecRes.noFuel_bind {α β : Type} (f : α → DecRes β) :
    (DecRes.noFuel : DecRes α).bind f = .noFuel := rfl

theorem DecRes.bind_ne_oob {α β : Type} {x : DecRes α} {f : α → DecRes β}
    (hx : x ≠ .oob) (hf : ∀ a, f a ≠ .oob) : x.bind f ≠ .oob := by
  cases x with
  | done a => exact hf a
  | oob => exact absurd rfl hx
  | noFuel => simp [DecRes.bind]


theorem cstrOf_length_le (data : List Nat) (pos : Nat) :
    (cstrOf data pos).length ≤ data.length - pos := by
  unfold cstrOf
  have h1 : ∀ (l : List Nat), (l.takeWhile (fun b => b != 0)).length ≤ l.length := by
    intro l
    induction l with
    | nil => simp
    | cons a t ih =>
      by_cases h : (a != 0) = true
      · simp only [List.takeWhile_cons, h, if_true, List.length_cons]
        omega
      · rw [List.takeWhile_cons, if_neg h]
        simp
  calc ((data.drop pos).takeWhile (fun b => b != 0)).length
      ≤ (data.drop pos).length := h1 _
    _ = data.length - pos := List.length_drop pos data

theorem readCstringI_eq (data : List Nat) :
    ∀ fuel pos, data.length - pos < fuel →
      readCstringI data fuel pos = .done (cstrOf data pos, cstrEnd data pos) := by
  intro fuel
  induction fuel with
  | zero => intro pos h; omega
  | succ fuel ih =>
    intro pos h
    by_cases hp : pos < data.length
    · have hdrop : data.drop pos = data[pos] :: data.drop (pos + 1) :=
        List.drop_eq_getElem_cons hp
      unfold readCstringI byteAt
      rw [if_pos hp, dif_pos hp, DecRes.done_bind]
      by_cases hb : data[pos] = 0
      · rw [if_pos hb]
        have : cstrOf data pos = [] := by
          unfold cstrOf; rw [hdrop]; simp [hb]
        simp [this, cstrEnd, hb]
      · rw [if_neg hb, ih (pos + 1) (by omega), DecRes.done_bind]
        have hc : cstrOf data pos = data[pos] :: cstrOf data (pos + 1) := by
          have hbb : (data[pos] != 0) = true := by simp [hb]
          unfold cstrOf
          rw [hdrop, List.takeWhile_cons, hbb]
          simp
        have he : cstrEnd data pos = cstrEnd data (pos + 1) := by
          unfold cstrEnd; rw [hc]; simp; omega
        rw [hc, he]
    · unfold readCstringI
      rw [if_neg hp]
      have hd : data.drop pos = [] := List.drop_eq_nil_of_le (by omega)
      have : cstrOf data pos = [] := by unfold cstrOf; rw [hd]; rfl
      simp [this, cstrEnd]

theorem readCstringR_eq (data : List Nat) (pos : Nat) :
    readCstringR data pos = .done (cstrOf data pos, cstrEnd data pos) :=
  readCstringI_eq data (data.length + 1) pos (by omega)

theorem readCstringI_ne_oob (data : List Nat) :
    ∀ fuel pos, readCstringI data fuel pos ≠ .oob := by
  intro fuel
  induction fuel with
  | zero => intro pos; simp [readCstringI]
  | succ fuel ih =>
    intro pos
    unfold readCstringI byteAt
    by_cases hp : pos < data.length
    · rw [if_pos hp, dif_pos hp, DecRes.done_bind]
      by_cases hb : data[pos] = 0
      · simp [hb]
      · rw [if_neg hb]
        exact DecRes.bind_ne_oob (ih (pos + 1)) (fun r => by simp)
    · rw [if_neg hp]; simp

theorem readU32le_snd_ge (data : List Nat) (pos : Nat) :
    pos ≤ (readU32le data pos).2 := by
  unfold readU32le; split <;> simp

theorem cstrEnd_ge (data : List Nat) (pos : Nat) : pos + 1 ≤ cstrEnd data pos := by
  unfold cstrEnd; omega

theorem fieldLoopI_done (data : List Nat) :
    ∀ fuel i st, data.length - i < fuel →
      ∃ st' i', fieldLoopI data fuel i st = .done (st', i') ∧ i ≤ i' := by
  intro fuel
  induction fuel with
  | zero => intro i st h; omega
  | succ fuel ih =>
    intro i st h
    by_cases hi : i < data.length
    · unfold fieldLoopI byteAt
      rw [if_pos hi, dif_pos hi, DecRes.done_bind]
      by_cases h8 : data[i] = 8
      · rw [if_pos h8]
        exact ⟨st, i, rfl, le_refl i⟩
      · rw [if_neg h8, readCstringR_eq, DecRes.done_bind]
        have he : i + 2 ≤ cstrEnd data (i + 1) := by
          have := cstrEnd_ge data (i + 1); omega
        by_cases h2 : data[i] = 2
        · rw [if_pos h2]
          have hp : i + 2 ≤ (readU32le data (cstrEnd data (i + 1))).2 := by
            have := readU32le_snd_ge data (cstrEnd data (i + 1)); omega
          obtain ⟨st', i', heq, hge⟩ := ih (readU32le data (cstrEnd data (i + 1))).2 _ (by omega)
          exact ⟨st', i', heq, by omega⟩
        · rw [if_neg h2]
          by_cases h1 : data[i] = 1
          · rw [if_pos h1, readCstringR_eq, DecRes.done_bind]
            have hp : i + 3 ≤ cstrEnd data (cstrEnd data (i + 1)) := by
              have := cstrEnd_ge data (cstrEnd data (i + 1)); omega
            obtain ⟨st', i', heq, hge⟩ := ih (cstrEnd data (cstrEnd data (i + 1))) _ (by omega)
            exact ⟨st', i', heq, by omega⟩
          · rw [if_neg h1]
            by_cases h4 : data[i] = 4
            · rw [if_pos h4]
              obtain ⟨st', i', heq, hge⟩ := ih (cstrEnd data (i + 1) + 4) st (by omega)
              exact ⟨st', i', heq, by omega⟩
            · rw [if_neg h4]
              by_cases h5 : data[i] = 5
              · rw [if_pos h5]
                obtain ⟨st', i', heq, hge⟩ := ih (cstrEnd data (i + 1) + 8) st (by omega)
                exact ⟨st', i', heq, by omega⟩
              · rw [if_neg h5]
                obtain ⟨st', i', heq, hge⟩ := ih (cstrEnd data (i + 1) + 1) st (by omega)
                exact ⟨st', i', heq, by omega⟩
    · unfold fieldLoopI
      rw [if_neg hi]
      exact ⟨st, i, rfl, le_refl i⟩

theorem fieldLoopI_ne_oob (data : List Nat) :
    ∀ fuel i st, fieldLoopI data fuel i st ≠ .oob := by
  intro fuel
  induction fuel with
  | zero => intro i st; simp [fieldLoopI]
  | succ fuel ih =>
    intro i st
    unfold fieldLoopI byteAt
    by_cases hi : i < data.length
    · rw [if_pos hi, dif_pos hi, DecRes.done_bind]
      by_cases h8 : data[i] = 8
      · rw [if_pos h8]; simp
      · rw [if_neg h8, readCstringR_eq, DecRes.done_bind]
        by_cases h2 : data[i] = 2
        · rw [if_pos h2]; exact ih _ _
        · rw [if_neg h2]
          by_cases h1 : data[i] = 1
          · rw [if_pos h1, readCstringR_eq, DecRes.done_bind]
            exact ih _ _
          · rw [if_neg h1]
            by_cases h4 : data[i] = 4
            · rw [if_pos h4]; exact ih _ _
            · rw [if_neg h4]
              by_cases h5 : data[i] = 5
              · rw [if_pos h5]; exact ih _ _
              · rw [if_neg h5]; exact ih _ _
    · rw [if_neg hi]; simp

theorem topLoopI_done (data : List Nat) :
    ∀ fuel i acc, data.length - i < fuel →
      ∃ gs, topLoopI data fuel i acc = .done gs := by
  intro fuel
  induction fuel with
  | zero => intro i acc h; omega
  | succ fuel ih =>
    intro i acc h
    by_cases hi : i < data.length
    · unfold topLoopI byteAt
      rw [if_pos hi, dif_pos hi, DecRes.done_bind]
      by_cases h0 : data[i] = 0
      · rw [if_pos h0, readCstringR_eq, DecRes.done_bind]
        have he : i + 2 ≤ cstrEnd data (i + 1) := by
          have := cstrEnd_ge data (i + 1); omega
        by_cases hk : keyIsNumeric (cstrOf data (i + 1)) = true
        · rw [if_pos hk]
          obtain ⟨st', i', heq, hge⟩ :=
            fieldLoopI_done data fuel (cstrEnd data (i + 1)) ⟨0, [], []⟩ (by omega)
          rw [heq, DecRes.done_bind]
          exact ih i' _ (by omega)
        · rw [if_neg hk]
          exact ih (cstrEnd data (i + 1)) acc (by omega)
      · rw [if_neg h0]
        exact ih (i + 1) acc (by omega)
    · unfold topLoopI
      rw [if_neg hi]
      exact ⟨acc, rfl⟩

theorem topLoopI_ne_oob (data : List Nat) :
    ∀ fuel i acc, topLoopI data fuel i acc ≠ .oob := by
  intro fuel
  induction fuel with
  | zero => intro i acc; simp [topLoopI]
  | succ fuel ih =>
    intro i acc
    unfold topLoopI byteAt
    by_cases hi : i < data.length
    · rw [if_pos hi, dif_pos hi, DecRes.done_bind]
      by_cases h0 : data[i] = 0
      · rw [if_pos h0, readCstringR_eq, DecRes.done_bind]
        by_cases hk : keyIsNumeric (cstrOf data (i + 1)) = true
        · rw [if_pos hk]
          apply DecRes.bind_ne_oob (fieldLoopI_ne_oob data fuel _ _)
          intro r
          exact ih r.2 _
        · rw [if_neg hk]; exact ih _ _
      · rw [if_neg h0]; exact ih _ _
    · rw [if_neg hi]; simp

theorem topLoopI_names (data : List Nat) :
    ∀ fuel i acc gs, topLoopI data fuel i acc = .done gs →
      (∀ g ∈ acc, g.app_name ≠ []) → ∀ g ∈ gs, g.app_name ≠ [] := by
  intro fuel
  induction fuel with
  | zero => intro i acc gs h hacc; simp [topLoopI] at h
  | succ fuel ih =>
    intro i acc gs h hacc
    by_cases hi : i < data.length
    · rw [topLoopI, if_pos hi] at h
      unfold byteAt at h
      rw [dif_pos hi, DecRes.done_bind] at h
      by_cases h0 : data[i] = 0
      · rw [if_pos h0, readCstringR_eq, DecRes.done_bind] at h
        by_cases hk : keyIsNumeric (cstrOf data (i + 1)) = true
        · rw [if_pos hk] at h
          cases hfl : fieldLoopI data fuel (cstrEnd data (i + 1)) ⟨0, [], []⟩ with
          | done r =>
            rw [hfl, DecRes.done_bind] at h
            refine ih r.2 _ gs h ?_
            by_cases hn : r.1.appName = []
            · rw [if_pos hn] at h ⊢
              exact hacc
            · rw [if_neg hn] at h ⊢
              intro g hg
              rcases List.mem_append.mp hg with hg | hg
              · exact hacc g hg
              · rcases List.mem_singleton.mp hg with rfl
                simpa using hn
          | oob => exact absurd hfl (fieldLoopI_ne_oob data fuel _ _)
          | noFuel => rw [hfl] at h; simp [DecRes.bind] at h
        · rw [if_neg hk] at h
          exact ih _ _ gs h hacc
      · rw [if_neg h0] at h
        exact ih _ _ gs h hacc
    · rw [topLoopI, if_neg hi] at h
      cases h
      exact hacc

/-! ### Lemmas about deduplication and the library-index parser -/

theorem keepFirsts_spec (l : List SteamGame) :
    ∀ seen g, g ∈ keepFirsts seen l →
      g.app_id ∉ seen ∧ l.find? (fun x => x.app_id == g.app_id) = some g := by
  induction l with
  | nil => intro seen g h; simp [keepFirsts] at h
  | cons b gs ih =>
    intro seen g h
    rw [keepFirsts] at h
    by_cases hb : b.app_id ∈ seen
    · rw [if_pos hb] at h
      obtain ⟨hns, hf⟩ := ih seen g h
      refine ⟨hns, ?_⟩
      rw [List.find?_cons]
      by_cases heq : b.app_id = g.app_id
      · exact absurd (heq ▸ hb) hns
      · have : (b.app_id == g.app_id) = false := by simp [heq]
        rw [this]
        exact hf
    · rw [if_neg hb] at h
      rcases List.mem_cons.mp h with rfl | h
      · refine ⟨hb, ?_⟩
        rw [List.find?_cons]
        simp
      · obtain ⟨hns, hf⟩ := ih _ g h
        have hgb : g.app_id ≠ b.app_id := fun hc =>
          hns (hc ▸ List.mem_cons_self _ _)
        refine ⟨fun hc => hns (List.mem_cons_of_mem _ hc), ?_⟩
        rw [List.find?_cons]
        have : (b.app_id == g.app_id) = false := by
          rw [beq_eq_false_iff_ne]
          exact fun hc => hgb hc.symm
        rw [this]
        exact hf

theorem keepFirsts_nodup (l : List SteamGame) :
    ∀ seen, ((keepFirsts seen l).map SteamGame.app_id).Nodup := by
  induction l with
  | nil => intro seen; simp [keepFirsts]
  | cons b gs ih =>
    intro seen
    rw [keepFirsts]
    by_cases hb : b.app_id ∈ seen
    · rw [if_pos hb]; exact ih seen
    · rw [if_neg hb]
      simp only [List.map_cons, List.nodup_cons]
      refine ⟨?_, ih _⟩
      intro hmem
      obtain ⟨g, hg, hgid⟩ := List.mem_map.mp hmem
      exact (keepFirsts_spec gs _ g hg).1 (hgid ▸ List.mem_cons_self _ _)

theorem keepFirsts_complete (l : List SteamGame) :
    ∀ seen a, a ∈ l → a.app_id ∉ seen →
      ∃ g ∈ keepFirsts seen l, g.app_id = a.app_id := by
  induction l with
  | nil => intro seen a h; simp at h
  | cons b gs ih =>
    intro seen a ha hns
    rw [keepFirsts]
    by_cases hb : b.app_id ∈ seen
    · rw [if_pos hb]
      rcases List.mem_cons.mp ha with rfl | ha
      · exact absurd hb hns
      · exact ih seen a ha hns
    · rw [if_neg hb]
      by_cases hab : a.app_id = b.app_id
      · exact ⟨b, List.mem_cons_self _ _, hab.symm⟩
      · rcases List.mem_cons.mp ha with rfl | ha
        · exact absurd rfl hab
        · obtain ⟨g, hg, hgid⟩ := ih (b.app_id :: seen) a ha
            (by simp only [List.mem_cons]; push_neg; exact ⟨hab, hns⟩)
          exact ⟨g, List.mem_cons_of_mem _ hg, hgid⟩

theorem foldl_insertNew_main (vals : List (List Char)) :
    ∀ acc, ∃ ext, vals.foldl insertNew acc = acc ++ ext ∧ ext.Sublist vals := by
  induction vals with
  | nil => intro acc; exact ⟨[], by simp, List.nil_sublist _⟩
  | cons v vs ih =>
    intro acc
    rw [List.foldl_cons]
    by_cases hv : v ∈ acc
    · have hstep : insertNew acc v = acc := by unfold insertNew; rw [if_pos hv]
      rw [hstep]
      obtain ⟨ext, heq, hsub⟩ := ih acc
      exact ⟨ext, heq, hsub.cons v⟩
    · have hstep : insertNew acc v = acc ++ [v] := by unfold insertNew; rw [if_neg hv]
      rw [hstep]
      obtain ⟨ext, heq, hsub⟩ := ih (acc ++ [v])
      refine ⟨v :: ext, ?_, hsub.cons₂ v⟩
      rw [heq, List.append_assoc]
      rfl

theorem foldl_insertNew_nodup (vals : List (List Char)) :
    ∀ acc, acc.Nodup → (vals.foldl insertNew acc).Nodup := by
  induction vals with
  | nil => intro acc h; simpa using h
  | cons v vs ih =>
    intro acc h
    rw [List.foldl_cons]
    by_cases hv : v ∈ acc
    · have hstep : insertNew acc v = acc := by unfold insertNew; rw [if_pos hv]
      rw [hstep]; exact ih acc h
    · have hstep : insertNew acc v = acc ++ [v] := by unfold insertNew; rw [if_neg hv]
      rw [hstep]
      refine ih (acc ++ [v]) ?_
      simp [List.nodup_append, h, hv]

theorem foldl_insertNew_len (vals : List (List Char)) :
    ∀ acc, vals.Nodup → (∀ v ∈ vals, v ∉ acc) →
      (vals.foldl insertNew acc).length = acc.length + vals.length := by
  induction vals with
  | nil => intro acc _ _; simp
  | cons v vs ih =>
    intro acc hnd hdis
    rw [List.foldl_cons]
    have hstep : insertNew acc v = acc ++ [v] := by
      unfold insertNew; rw [if_neg (hdis v (List.mem_cons_self _ _))]
    rw [hstep]
    have h1 : vs.Nodup := (List.nodup_cons.mp hnd).2
    have h2 : ∀ u ∈ vs, u ∉ acc ++ [v] := by
      intro u hu
      simp only [List.mem_append, List.mem_singleton]
      push_neg
      exact ⟨hdis u (List.mem_cons_of_mem _ hu),
        fun hc => (List.nodup_cons.mp hnd).1 (hc ▸ hu)⟩
    rw [ih (acc ++ [v]) h1 h2]
    simp
    omega

theorem foldl_libStep (ls : List (List Char)) :
    ∀ acc, ls.foldl libStep acc = (ls.filterMap lineValue).foldl insertNew acc := by
  induction ls with
  | nil => intro acc; simp
  | cons l ls ih =>
    intro acc
    rw [List.foldl_cons, List.filterMap_cons]
    cases hlv : lineValue l with
    | none =>
      have hstep : libStep acc l = acc := by unfold libStep; rw [hlv]
      rw [hstep]
      exact ih acc
    | some v =>
      have hstep : libStep acc l = insertNew acc v := by unfold libStep; rw [hlv]
      rw [hstep]
      exact ih (insertNew acc v)

theorem parse_library_paths_foldl (vdf : List Char) (steamRoot : List Char) :
    parse_library_paths_from_vdf vdf steamRoot =
      (pathValues vdf).foldl insertNew [pathJoin steamRoot (strc "steamapps")] := by
  unfold parse_library_paths_from_vdf pathValues
  exact foldl_libStep _ _

/-! ### Lemmas about the manifest scanner -/

theorem find?_eq_head_filter {α : Type} (p : α → Bool) (l : List α) :
    l.find? p = (l.filter p).head? := by
  induction l with
  | nil => simp
  | cons a t ih =>
    by_cases h : p a = true
    · simp [List.find?_cons, List.filter_cons, h]
    · simp only [List.find?_cons, List.filter_cons]
      rw [if_neg h]
      simp only [Bool.not_eq_true] at h
      rw [h]
      exact ih

theorem getBool_flagVal (o : JObj) (k : String) (b : Bool) :
    getBool o k = some b → flagVal o k = b := by
  unfold getBool getField flagVal
  rw [find?_eq_head_filter]
  cases hf : o.filter (fun p => p.1 == k) with
  | nil =>
    intro h
    simp only [Option.some.injEq] at h
    simp [← h]
  | cons p rest =>
    cases rest with
    | nil =>
      obtain ⟨k', v⟩ := p
      cases v with
      | jbool b' =>
        intro h
        simp only [Option.some.injEq] at h
        simp [← h]
      | jnull => intro h; simp at h
      | jstr s => intro h; simp at h
      | jother => intro h; simp at h
    | cons q rest2 => intro h; simp at h

theorem deserializeManifest_flags (o : JObj) (m : Manifest) :
    deserializeManifest o = some m →
      m.b_is_application = flagVal o "bIsApplication" ∧
      m.b_is_executable = flagVal o "bIsExecutable" ∧
      m.b_is_incomplete_install = flagVal o "bIsIncompleteInstall" := by
  unfold deserializeManifest
  intro h
  simp only [Option.bind_eq_bind, Option.bind_eq_some] at h
  obtain ⟨a1, h1, a2, h2, a3, h3, a4, h4, a5, h5, a6, h6, a7, h7, a8, h8, hm⟩ := h
  simp only [Option.some.injEq] at hm
  subst hm
  exact ⟨(getBool_flagVal o _ _ h6).symm, (getBool_flagVal o _ _ h7).symm,
    (getBool_flagVal o _ _ h8).symm⟩

theorem nonEmptyStr_ne (x : Option String) (s : String) :
    nonEmptyStr x = some s → s ≠ "" := by
  cases x with
  | none => simp [nonEmptyStr]
  | some t =>
    unfold nonEmptyStr
    by_cases h : t = ""
    · simp [h]
    · simp only [if_neg h, Option.some.injEq]
      rintro rfl
      exact h

/-! ### The claims -/

/-- Claim C6: for every byte buffer, including arbitrarily malformed or
truncated ones, the shortcut decoder performs no out-of-bounds slice index
on any execution path: the cstring reader, the per-app field loop and the
top-level scan loop never produce the panic value, whatever the fuel,
start position and state. -/
theorem claim_C6 :
    (∀ (data : List Nat) (fuel pos : Nat), readCstringI data fuel pos ≠ .oob)
    ∧ (∀ (data : List Nat) (fuel i : Nat) (st : SState),
        fieldLoopI data fuel i st ≠ .oob)
    ∧ (∀ (data : List Nat) (fuel i : Nat) (acc : List ShortcutGame),
        topLoopI data fuel i acc ≠ .oob) :=
  ⟨fun data fuel pos => readCstringI_ne_oob data fuel pos,
   fun data fuel i st => fieldLoopI_ne_oob data fuel i st,
   fun data fuel i acc => topLoopI_ne_oob data fuel i acc⟩

/-- Claim C6, applied at a concrete buffer. -/
theorem claim_C6_witness : topLoopI [0, 48, 0, 8] 5 0 [] ≠ .oob :=
  claim_C6.2.2 [0, 48, 0, 8] 5 0 []

/-- Claim C10: `parse_shortcuts_vdf` terminates on every finite buffer:
fuel `data.length + 1` — one unit per byte — always suffices for the
top-level scan (each outer iteration and each inner field iteration
strictly advances the cursor), so the instrumented loop completes with a
normal result that the wrapper returns. -/
theorem claim_C10 : ∀ data : List Nat,
    ∃ gs, topLoopI data (data.length + 1) 0 [] = .done gs
      ∧ parse_shortcuts_vdf data = gs := by
  intro data
  obtain ⟨gs, h⟩ := topLoopI_done data (data.length + 1) 0 [] (by omega)
  refine ⟨gs, h, ?_⟩
  unfold parse_shortcuts_vdf
  rw [h]

/-- Claim C2 (amended): the shortcut decoder and the Epic manifest parser
never return a record with an empty display name; `parse_acf`, however,
copies the `name` value verbatim and can return a record whose name is
empty (see the counterexample), so the invariant does not hold for it. -/
theorem claim_C2 :
    (∀ (data : List Nat), ∀ g ∈ parse_shortcuts_vdf data, g.app_name ≠ [])
    ∧ (∀ (doc : Option JObj) (cover : String → Option String) (g : EpicGame),
        parse_manifest doc cover = some g → g.display_name ≠ "") := by
  constructor
  · intro data g hg
    unfold parse_shortcuts_vdf at hg
    cases htop : topLoopI data (data.length + 1) 0 [] with
    | done gs =>
      rw [htop] at hg
      exact topLoopI_names data _ 0 [] gs htop (by simp) g hg
    | oob => rw [htop] at hg; simp at hg
    | noFuel => rw [htop] at hg; simp at hg
  · intro doc cover g h
    cases doc with
    | none => simp [parse_manifest] at h
    | some o =>
      simp only [parse_manifest, Option.bind_eq_bind, Option.some_bind] at h
      cases hm : deserializeManifest o with
      | none => rw [hm] at h; simp at h
      | some m =>
        rw [hm] at h
        simp only [Option.some_bind] at h
        by_cases hf : (m.b_is_application && m.b_is_executable
            && !m.b_is_incomplete_install) = true
        · rw [if_pos hf] at h
          simp only [Option.bind_eq_bind, Option.bind_eq_some] at h
          obtain ⟨an, han, dn, hdn, il, hil, hg⟩ := h
          simp only [Option.some.injEq] at hg
          subst hg
          exact nonEmptyStr_ne m.display_name dn hdn
        · rw [if_neg hf] at h
          simp at h

/-- Claim C2, applied at a concrete buffer and a concrete manifest. -/
theorem claim_C2_witness :
    ((⟨0, [88], []⟩ : ShortcutGame).app_name ≠ [])
    ∧ (("D" : String) ≠ "") :=
  ⟨claim_C2.1 simpleBuf ⟨0, [88], []⟩ (by decide),
   claim_C2.2 (some objFlagsTrue) noCover ⟨"G", "D", "/g", "", "", none⟩ (by decide)⟩

/-- Claim C2 fails as stated for `parse_acf`: a manifest whose `name`
line carries an empty quoted value produces a record with an empty
name instead of being dropped. -/
theorem claim_C2_cex :
    parse_acf emptyNameAcf (strc "/s") = some ⟨1, [], strc "/s/common/d", false⟩ := by
  decide

/-- Claim C3 (amended): the per-app field loop does not recurse into
nested objects. A field with tag `0x00` is handled like an unknown tag —
its name is read and exactly one payload byte is skipped — and the
iteration stops at the first `0x08` found at a field boundary, with no
matching-depth tracking, so a `0x08` closing a nested inner map does
terminate the enclosing per-app entry (see the counterexample). -/
theorem claim_C3 : ∀ (data : List Nat) (i : Nat) (st : SState) (fuel : Nat)
    (hi : i < data.length),
    (data[i] = 0 → fieldLoopI data (fuel + 1) i st =
      fieldLoopI data fuel (cstrEnd data (i + 1) + 1) st)
    ∧ (data[i] = 8 → fieldLoopI data (fuel + 1) i st = .done (st, i)) := by
  intro data i st fuel hi
  constructor
  · intro h0
    conv_lhs => rw [fieldLoopI]
    rw [if_pos hi]
    unfold byteAt
    rw [dif_pos hi, DecRes.done_bind, h0]
    rw [if_neg (by omega), readCstringR_eq, DecRes.done_bind]
    rw [if_neg (by omega), if_neg (by omega), if_neg (by omega), if_neg (by omega)]
  · intro h8
    conv_lhs => rw [fieldLoopI]
    rw [if_pos hi]
    unfold byteAt
    rw [dif_pos hi, DecRes.done_bind, h8, if_pos rfl]

/-- Claim C3, applied at concrete buffers: a `0x00` tag at position 0 is
skipped as tag + name + one byte, and a `0x08` at position 0 ends the
iteration immediately. -/
theorem claim_C3_witness :
    (fieldLoopI [0, 0, 8] 6 0 ⟨0, [], []⟩ = fieldLoopI [0, 0, 8] 5 3 ⟨0, [], []⟩)
    ∧ (fieldLoopI [8] 6 0 ⟨0, [], []⟩ = .done (⟨0, [], []⟩, 0)) :=
  ⟨(claim_C3 [0, 0, 8] 0 ⟨0, [], []⟩ 5 (by decide)).1 (by decide),
   (claim_C3 [8] 0 ⟨0, [], []⟩ 5 (by decide)).2 (by decide)⟩

/-- Claim C3 fails as stated: on `nestedBuf` the spec's nesting-aware
decoding yields the record (`appname` "X" lies after the nested object),
while the implementation loses it — the nested map's own `0x08` ends the
per-app iteration before the `appname` field is reached. -/
theorem claim_C3_cex :
    spec_parse_shortcuts nestedBuf = [⟨0, [88], []⟩]
    ∧ parse_shortcuts_vdf nestedBuf = [] := by
  constructor
  · decide
  · decide

/-- Claim C7: `parse_acf` yields a record exactly when the three keys are
present with a numeric `appid`, and the record carries that id, that name,
and `install_dir = steamapps_dir/common/<installdir>`; when a key is
missing or `appid` does not parse, it yields `None`. -/
theorem claim_C7 : ∀ (contents steamappsDir : List Char),
    (∀ a idv n d, find_acf_value contents (strc "appid") = some a →
      parseU64 a = some idv →
      find_acf_value contents (strc "name") = some n →
      find_acf_value contents (strc "installdir") = some d →
      parse_acf contents steamappsDir = some ⟨idv, n,
        pathJoin (pathJoin steamappsDir (strc "common")) d, false⟩)
    ∧ ((find_acf_value contents (strc "appid") = none
        ∨ (∃ a, find_acf_value contents (strc "appid") = some a ∧ parseU64 a = none)
        ∨ find_acf_value contents (strc "name") = none
        ∨ find_acf_value contents (strc "installdir") = none) →
      parse_acf contents steamappsDir = none) := by
  intro contents dir
  constructor
  · intro a idv n d ha hp hn hd
    simp [parse_acf, ha, hp, hn, hd]
  · rintro (h | ⟨a, ha, hp⟩ | h | h)
    · simp [parse_acf, h]
    · simp [parse_acf, ha, hp]
    · unfold parse_acf
      cases ha : find_acf_value contents (strc "appid") with
      | none => simp
      | some a =>
        cases hpu : parseU64 a with
        | none => simp [hpu]
        | some idv => simp [h]
    · unfold parse_acf
      cases ha : find_acf_value contents (strc "appid") with
      | none => simp
      | some a =>
        cases hpu : parseU64 a with
        | none => simp [hpu]
        | some idv =>
          cases hn : find_acf_value contents (strc "name") with
          | none => simp [hn]
          | some n => simp [h]

/-- Claim C7, applied at a complete concrete manifest. -/
theorem claim_C7_witness :
    parse_acf dotaAcf (strc "/s/steamapps")
      = some ⟨570, strc "Dota", strc "/s/steamapps/common/dota", false⟩ :=
  (claim_C7 dotaAcf (strc "/s/steamapps")).1 (strc "570") 570 (strc "Dota")
    (strc "dota") (by decide) (by decide) (by decide) (by decide)

/-- Claim C8 (amended): the output always starts with the root's own
`steamapps` directory, has no duplicate paths, and lists the remaining
entries in the order of the `"path"` lines; the length is N+1 for N
`"path"`-line values that are pairwise distinct, provided additionally
that none of them equals the root's own entry — a `"path"` line equal to
the root is collapsed into the first element (see the counterexample). -/
theorem claim_C8 : ∀ (vdf steamRoot : List Char),
    (parse_library_paths_from_vdf vdf steamRoot).head? =
        some (pathJoin steamRoot (strc "steamapps"))
    ∧ (parse_library_paths_from_vdf vdf steamRoot).Nodup
    ∧ (∃ ext, parse_library_paths_from_vdf vdf steamRoot =
        pathJoin steamRoot (strc "steamapps") :: ext
        ∧ ext.Sublist (pathValues vdf))
    ∧ ((pathValues vdf).Nodup →
        pathJoin steamRoot (strc "steamapps") ∉ pathValues vdf →
        (parse_library_paths_from_vdf vdf steamRoot).length =
          (pathValues vdf).length + 1) := by
  intro vdf root
  rw [parse_library_paths_foldl]
  obtain ⟨ext, heq, hsub⟩ :=
    foldl_insertNew_main (pathValues vdf) [pathJoin root (strc "steamapps")]
  refine ⟨?_, ?_, ⟨ext, ?_, hsub⟩, ?_⟩
  · rw [heq]; rfl
  · exact foldl_insertNew_nodup (pathValues vdf) _ (by simp)
  · rw [heq]; rfl
  · intro hnd hnm
    rw [foldl_insertNew_len (pathValues vdf) _ hnd ?_]
    · simp [Nat.add_comm]
    · intro v hv
      simp only [List.mem_singleton]
      intro hc
      exact hnm (hc ▸ hv)

/-- Claim C8, applied at a concrete index with one distinct extra
library. -/
theorem claim_C8_witness :
    (parse_library_paths_from_vdf (strc "\"path\" \"/a\"") (strc "/r")).length = 2
    ∧ (parse_library_paths_from_vdf (strc "\"path\" \"/a\"") (strc "/r")).head? =
        some (strc "/r/steamapps") :=
  ⟨(claim_C8 (strc "\"path\" \"/a\"") (strc "/r")).2.2.2 (by decide) (by decide),
   (claim_C8 (strc "\"path\" \"/a\"") (strc "/r")).1⟩

/-- Claim C8 fails as stated: one `"path"` line (so N = 1, trivially
without duplicates) whose value equals the root collapses into the root's
own entry, giving output length 1, not N+1 = 2. -/
theorem claim_C8_cex :
    pathValues (strc "\"path\" \"/s\"") = [strc "/s/steamapps"]
    ∧ (parse_library_paths_from_vdf (strc "\"path\" \"/s\"") (strc "/s")).length = 1 := by
  constructor
  · decide
  · decide

/-- Claim C5: whenever `discover_games_at` succeeds, the returned records
have pairwise-distinct `app_id`s; each returned record is the first record
with its `app_id` in the concatenated discovery order (library paths in
index order, files in walk order), and every discovered `app_id` is
represented. -/
theorem claim_C5 : ∀ (fs : SteamFS) (steamRoot : List Char) (r : List SteamGame),
    discover_games_at fs steamRoot = .ok r →
      ((r.map SteamGame.app_id).Nodup
      ∧ (∀ g ∈ r, (steamAllGames fs steamRoot).find?
          (fun x => x.app_id == g.app_id) = some g)
      ∧ (∀ a ∈ steamAllGames fs steamRoot, ∃ g ∈ r, g.app_id = a.app_id)) := by
  intro fs root r h
  unfold discover_games_at at h
  by_cases hre : fs.rootExists = false
  · rw [if_pos hre] at h
    simp at h
  · rw [if_neg hre] at h
    unfold find_library_paths at h
    cases hv : fs.libraryVdf with
    | none => rw [hv] at h; simp at h
    | some s =>
      rw [hv] at h
      simp only [Except.ok.injEq] at h
      have hall : steamAllGames fs root =
          (parse_library_paths_from_vdf s root).flatMap (read_games_from_library fs) := by
        unfold steamAllGames
        rw [hv]
      subst h
      rw [hall]
      exact ⟨keepFirsts_nodup _ [],
        fun g hg => (keepFirsts_spec _ [] g hg).2,
        fun a ha => keepFirsts_complete _ [] a ha (by simp)⟩

/-- Claim C5, applied at a filesystem with a duplicated app id across two
libraries: ids are distinct and id 100 resolves to the first record. -/
theorem claim_C5_witness :
    ((([gameA, gameB] : List SteamGame).map SteamGame.app_id).Nodup)
    ∧ (steamAllGames fsDup (strc "/r")).find?
        (fun x => x.app_id == gameA.app_id) = some gameA :=
  ⟨(claim_C5 fsDup (strc "/r") [gameA, gameB] (by rfl)).1,
   (claim_C5 fsDup (strc "/r") [gameA, gameB] (by rfl)).2.1 gameA (by decide)⟩

/-- Claim C9: an Epic record is accepted only when the is-application and
is-executable flags hold and the incomplete-install flag does not — a
deserialized manifest failing the conjunction yields no record; an
unreadable or structurally invalid manifest file contributes nothing and
removing it leaves the sibling results unchanged; and scanning an
existing, readable directory never returns an error. -/
theorem claim_C9 :
    (∀ (o : JObj) (cover : String → Option String) (m : Manifest),
      deserializeManifest o = some m →
      (m.b_is_application && m.b_is_executable && !m.b_is_incomplete_install) = false →
      parse_manifest (some o) cover = none)
    ∧ (∀ (pre post : List EpicEntry) (e : EpicEntry)
        (cover : String → Option String), e.doc = none →
        discover_games_from ⟨true, some (pre ++ e :: post), cover⟩ =
          discover_games_from ⟨true, some (pre ++ post), cover⟩)
    ∧ (∀ (es : List EpicEntry) (cover : String → Option String),
        ∃ gs, discover_games_from ⟨true, some es, cover⟩ = .ok gs) := by
  refine ⟨?_, ?_, ?_⟩
  · intro o cover m hm hflag
    simp only [parse_manifest, Option.bind_eq_bind, Option.some_bind, hm]
    rw [if_neg (by simp [hflag])]
  · intro pre post e cover hdoc
    simp only [discover_games_from]
    rw [if_neg (by simp), if_neg (by simp)]
    simp only [List.filterMap_append, List.filterMap_cons]
    have : (if e.ext = some "item" then parse_manifest e.doc cover else none) = none := by
      rw [hdoc]
      by_cases he : e.ext = some "item"
      · rw [if_pos he]
        simp [parse_manifest]
      · rw [if_neg he]
    rw [this]
  · intro es cover
    refine ⟨es.filterMap (fun e =>
      if e.ext = some "item" then parse_manifest e.doc cover else none), ?_⟩
    simp only [discover_games_from]
    rw [if_neg (by simp)]

/-- Claim C9, applied at concrete inputs: an incomplete-install manifest
is rejected, and dropping an invalid file leaves the result unchanged. -/
theorem claim_C9_witness :
    parse_manifest (some objIncomplete) noCover = none
    ∧ discover_games_from ⟨true, some ([] ++ badEntry :: [goodEntry]), noCover⟩ =
        discover_games_from ⟨true, some ([] ++ [goodEntry]), noCover⟩ :=
  ⟨claim_C9.1 objIncomplete noCover
      ⟨some "G", some "D", some "/g", none, none, true, true, true⟩
      (by decide) (by decide),
   claim_C9.2.1 [] [goodEntry] badEntry noCover rfl⟩

/-- Claim C4 (amended): the three boolean flags of a successfully
deserialized manifest are determined by an exact-case lookup of the
canonical key names `bIsApplication` / `bIsExecutable` /
`bIsIncompleteInstall` only; a flag spelled with any other letter case is
an unrelated, ignored field, so the flag falls back to `false` (see the
counterexample) — the lookup is not case-insensitive. -/
theorem claim_C4 : ∀ (o : JObj) (m : Manifest), deserializeManifest o = some m →
    m.b_is_application = flagVal o "bIsApplication"
    ∧ m.b_is_executable = flagVal o "bIsExecutable"
    ∧ m.b_is_incomplete_install = flagVal o "bIsIncompleteInstall" :=
  fun o m h => deserializeManifest_flags o m h

/-- Claim C4, applied at a concrete manifest with canonical-case keys. -/
theorem claim_C4_witness :
    mFlagsTrue.b_is_application = flagVal objFlagsTrue "bIsApplication" :=
  (claim_C4 objFlagsTrue mFlagsTrue (by decide)).1

/-- Claim C4 fails as stated: two manifests identical except for the
letter case of the is-application flag key are not treated identically —
the canonical spelling is accepted, the variant spelling is rejected. -/
theorem claim_C4_cex :
    parse_manifest (some objFlagsTrue) noCover = some ⟨"G", "D", "/g", "", "", none⟩
    ∧ parse_manifest (some objFlagsWrongCase) noCover = none := by
  constructor
  · decide
  · decide

/-- Claim C1 (amended): only the Epic side returns an empty `Ok` result
for a missing source root; Steam's `discover_games_at` returns the
`NotFound` error for a non-existent root instead of an empty list. -/
theorem claim_C1 :
    (∀ (fs : SteamFS) (steamRoot : List Char), fs.rootExists = false →
      discover_games_at fs steamRoot = .error .notFound)
    ∧ (∀ (fs : EpicFS), fs.dirExists = false →
      discover_games_from fs = .ok []) := by
  constructor
  · intro fs root h
    unfold discover_games_at
    rw [if_pos h]
  · intro fs h
    unfold discover_games_from
    rw [if_pos h]

/-- Claim C1, applied at absent-root filesystems. -/
theorem claim_C1_witness :
    discover_games_at fsAbsentSteam (strc "/r") = .error .notFound
    ∧ discover_games_from fsAbsentEpic = .ok [] :=
  ⟨claim_C1.1 fsAbsentSteam (strc "/r") rfl, claim_C1.2 fsAbsentEpic rfl⟩

/-- Claim C1 fails as stated for the Steam side: on a non-existent root,
`discover_games_at` does not return an `Ok` result carrying an empty
list — it returns the `NotFound` error. -/
theorem claim_C1_cex :
    discover_games_at fsAbsentSteam (strc "/s") ≠ .ok []
    ∧ discover_games_at fsAbsentSteam (strc "/s") = .error .notFound := by
  constructor
  · intro h
    exact Except.noConfusion h
  · rfl
